import Mathlib

/-!
Verification of `clang-tags.c`: the growable tag buffer (`emit_tag`,
`emit_file`), the search-text extractor (`find_search_text`), the definition
visitor (`cursor_visitor`) and the missing-include list (`add_missing_file`).

Bytes are natural numbers (character codes).  A C string is the list of the
bytes before its terminating NUL; the content of a file is the list of its bytes.
-/

namespace ClangTags

/-- Ways in which an execution leaves defined behaviour. -/
inductive Fault where
  /-- a read or write at an index below the start of the object -/
  | below
  /-- a read or write at an index at or past the end of the object -/
  | beyond
  /-- a read of a byte that was never written -/
  | indeterminate
  /-- `end - start + 1` is negative and wraps as a `size_t` -/
  | negativeLength
  /-- an `assert` fails -/
  | assertion
  /-- a loop does not terminate -/
  | diverges
  deriving DecidableEq, Repr

/-- The bytes of an ASCII string literal. -/
def bytesOf (s : String) : List Nat := s.toList.map Char.toNat

/-! ## Search-text extractor -/

/-- The predicate `end_search_char`: one of `)`, `{`, `\n`, `\r`, `;`. -/
def end_search_char (ch : Nat) : Bool :=
  ch == 41 || ch == 123 || ch == 10 || ch == 13 || ch == 59

/-- The function `isspace` in the "C" locale (the program never calls
`setlocale`): space, `\t`, `\n`, `\v`, `\f`, `\r`; no byte above 127 is a space. -/
def isspace (ch : Nat) : Bool :=
  ch == 32 || ch == 9 || ch == 10 || ch == 11 || ch == 12 || ch == 13

/-- Read `content[i]`; the mapped file has bytes at the indices below its length. -/
def readAt (content : List Nat) (i : Nat) : Except Fault Nat :=
  match content[i]? with
  | some b => .ok b
  | none => .error .beyond

/-- The loop `while (start > content && start[-1] != '\n') start--;`
The argument is the index `start - content`. -/
def scanBack (content : List Nat) : Nat → Except Fault Nat
  | 0 => .ok 0
  | s + 1 =>
    match readAt content s with
    | .error f => .error f
    | .ok b => if b = 10 then .ok (s + 1) else scanBack content s

/-- The loop `while (end <= content + offset + max && !end_search_char(*end)) end++;`
The first argument counts the indices still allowed by the bound, that is
`offset + max + 1 - end`; the second is the index `end - content`. -/
def scanFwd (content : List Nat) : Nat → Nat → Except Fault Nat
  | 0, e => .ok e
  | fuel + 1, e =>
    match readAt content e with
    | .error f => .error f
    | .ok b => if end_search_char b then .ok e else scanFwd content fuel (e + 1)

/-- The loop `while (isspace(*end)) end--;`  Stepping below index 0 makes the next read
fall before the start of the content. -/
def trimBack (content : List Nat) : Nat → Except Fault Nat
  | 0 =>
    match readAt content 0 with
    | .error f => .error f
    | .ok b => if isspace b then .error .below else .ok 0
  | e + 1 =>
    match readAt content (e + 1) with
    | .error f => .error f
    | .ok b => if isspace b then trimBack content e else .ok (e + 1)

/-- The three loops of `find_search_text`: the indices `start - content` and
`end - content` when the copy begins. -/
def find_search_span (content : List Nat) (offset max : Nat) : Except Fault (Nat × Nat) :=
  match scanBack content offset with
  | .error f => .error f
  | .ok start =>
    match scanFwd content (max + 1) offset with
    | .error f => .error f
    | .ok e =>
      match trimBack content e with
      | .error f => .error f
      | .ok e => .ok (start, e)

/-- The function `find_search_text`: the `nchars = end - start + 1` bytes
copied into the returned buffer (its terminating NUL left implicit).  A
negative `end - start + 1` wraps as a `size_t` and the copy leaves the content. -/
def find_search_text (content : List Nat) (offset max : Nat) : Except Fault (List Nat) :=
  match find_search_span content offset max with
  | .error f => .error f
  | .ok (start, e) =>
    if e + 1 < start then .error .negativeLength
    else .ok ((content.drop start).take (e + 1 - start))

/-- The bytes `content[s..e]`, both ends included. -/
def slice (content : List Nat) (s e : Nat) : List Nat :=
  (content.drop s).take (e + 1 - s)

/-- Spec: `s` is the index just after the last `\n` before `O` (0 if there is none). -/
def IsLineStart (content : List Nat) (O s : Nat) : Prop :=
  s ≤ O ∧ (s = 0 ∨ content[s - 1]? = some 10) ∧ ∀ i, i < O → s ≤ i → content[i]? ≠ some 10

/-- Spec: `t` is the first index `≥ O` holding a terminator. -/
def IsFirstTerminator (content : List Nat) (O t : Nat) : Prop :=
  O ≤ t ∧ (∃ b, content[t]? = some b ∧ end_search_char b = true) ∧
    ∀ i, i < t → O ≤ i → ∀ b, content[i]? = some b → end_search_char b = false

/-- Spec: `e` is the last index `≤ t` whose byte is not whitespace. -/
def IsLastNonSpace (content : List Nat) (t e : Nat) : Prop :=
  e ≤ t ∧ (∃ b, content[e]? = some b ∧ isspace b = false) ∧
    ∀ i, i ≤ t → e < i → ∀ b, content[i]? = some b → isspace b = true

/-- The example file of the specification. -/
def addExample : List Nat := bytesOf "int add(int a, int b) \x7b\n  return a+b;\n\x7d"

/-! ## Growable tag buffer

`malloc` and `realloc` are taken to succeed (the `assert`s on their results
pass) and `size_t` sizes do not wrap.  A byte of the allocation that was never
written is `none`. -/

/-- The globals `etags_buf`, `etags_wr_ptr` (as the offset
`etags_wr_ptr - etags_buf`) and `etags_buf_len`. -/
structure TagBuf where
  etags_buf : List (Option Nat)
  etags_wr_ptr : Nat
  etags_buf_len : Nat
  deriving DecidableEq, Repr

/-- The buffer as `main` sets it up: `etags_buf_len = 16`,
`etags_buf = etags_wr_ptr = malloc(etags_buf_len)`. -/
def initBuf : TagBuf :=
  { etags_buf := List.replicate 16 none, etags_wr_ptr := 0, etags_buf_len := 16 }

/-- Digits of `%u` / `%lu`, most significant first; the first argument bounds
the number of digits. -/
def decimalAux : Nat → Nat → List Nat → List Nat
  | 0, _, acc => acc
  | fuel + 1, n, acc =>
    if n < 10 then (48 + n) :: acc
    else decimalAux fuel (n / 10) ((48 + n % 10) :: acc)

/-- The decimal representation printed by `%u` / `%lu`. -/
def decimal (n : Nat) : List Nat := decimalAux (n + 1) n []

/-- The expansion of the format `"%s\x7f%s\x01%u,%u\n"` on `text, name, line, offset`. -/
def formatTag (text name : List Nat) (line offset : Nat) : List Nat :=
  text ++ [127] ++ name ++ [1] ++ decimal line ++ [44] ++ decimal offset ++ [10]

/-- The call `realloc(buf, n)`: the old bytes up to `n` are kept, new ones are unwritten. -/
def realloc (buf : List (Option Nat)) (n : Nat) : List (Option Nat) :=
  buf.take n ++ List.replicate (n - buf.length) none

/-- Store `data` into `buf` from index `pos` on. -/
def writeBytes (buf : List (Option Nat)) (pos : Nat) (data : List Nat) : List (Option Nat) :=
  buf.take pos ++ data.map some ++ buf.drop (pos + data.length)

/-- The call `snprintf(buf + pos, size, ...)` whose formatted output is `s`: at most
`size - 1` bytes of `s` and a NUL are stored, and the full length of `s` is
returned. -/
def snprintf (buf : List (Option Nat)) (pos size : Nat) (s : List Nat) :
    List (Option Nat) × Nat :=
  if size = 0 then (buf, s.length)
  else (writeBytes buf pos (s.take (size - 1) ++ [0]), s.length)

/-- The loop `while (remain < line_len) { remain += etags_buf_len;
etags_buf_len *= 2; etags_buf = realloc(etags_buf, etags_buf_len); ... }` on
`(remain, etags_buf_len, etags_buf)`.  The first argument bounds the number of
rounds; running out of it reports a loop that does not terminate. -/
def growLoop : Nat → Nat → Nat → List (Option Nat) → Nat →
    Except Fault (Nat × Nat × List (Option Nat))
  | 0, remain, len, buf, line_len =>
    if remain < line_len then .error .diverges else .ok (remain, len, buf)
  | fuel + 1, remain, len, buf, line_len =>
    if remain < line_len then
      growLoop fuel (remain + len) (len * 2) (realloc buf (len * 2)) line_len
    else .ok (remain, len, buf)

/-- The function `emit_tag`.  Each round of the loop with `etags_buf_len > 0`
adds at least one to `remain`, so `line_len` rounds are enough; with
`etags_buf_len = 0` the loop of the source never ends.  The subtraction
`etags_buf_len - etags_buf_off` does not wrap as long as the write offset is at
most the capacity, which holds in every reachable state. -/
def emit_tag (name text : List Nat) (line offset : Nat) (st : TagBuf) : Except Fault TagBuf :=
  let etags_buf_off := st.etags_wr_ptr
  let remain := st.etags_buf_len - etags_buf_off
  let line_len := name.length + text.length + 64
  match growLoop line_len remain st.etags_buf_len st.etags_buf line_len with
  | .error f => .error f
  | .ok (remain, len, buf) =>
    let r := snprintf buf etags_buf_off remain (formatTag text name line offset)
    .ok { etags_buf := r.1, etags_wr_ptr := etags_buf_off + r.2, etags_buf_len := len }

/-- The call `fputs(etags_buf, output)`: the bytes from index 0 up to the first NUL. -/
def fputs : List (Option Nat) → Except Fault (List Nat)
  | [] => .error .beyond
  | none :: _ => .error .indeterminate
  | some b :: rest =>
    if b = 0 then .ok []
    else
      match fputs rest with
      | .error f => .error f
      | .ok out => .ok (b :: out)

/-- The function `emit_file`: what is written to `output` (the form-feed line, the header
line `file,bytes` and the buffer up to its first NUL), or the fault met while
reading the buffer, together with the buffer after `etags_wr_ptr = etags_buf`. -/
def emit_file (file : List Nat) (st : TagBuf) : Except Fault (List Nat) × TagBuf :=
  let bytes := st.etags_wr_ptr
  let out :=
    match fputs st.etags_buf with
    | .error f => .error f
    | .ok block => .ok ([12, 10] ++ (file ++ [44] ++ decimal bytes ++ [10]) ++ block)
  (out, { st with etags_wr_ptr := 0 })

/-- A tag record as in the data model of the specification. -/
structure TagRecord where
  name : List Nat
  text : List Nat
  line : Nat
  offset : Nat
  deriving DecidableEq, Repr

/-- The strings are NUL-free and the numbers fit the type `unsigned`. -/
def TagRecord.valid (r : TagRecord) : Prop :=
  0 ∉ r.name ∧ 0 ∉ r.text ∧ r.line < 4294967296 ∧ r.offset < 4294967296

/-- Spec: the record line `<searchText>\x7f<symbolName>\x01<line>,<byteOffset>\n`. -/
def TagRecord.serialize (r : TagRecord) : List Nat :=
  r.text ++ [127] ++ r.name ++ [1] ++ decimal r.line ++ [44] ++ decimal r.offset ++ [10]

/-- The function `emit_tag` called on each record in order. -/
def emit_tags : List TagRecord → TagBuf → Except Fault TagBuf
  | [], st => .ok st
  | r :: rs, st =>
    match emit_tag r.name r.text r.line r.offset st with
    | .error f => .error f
    | .ok st' => emit_tags rs st'

/-- The states reached from the initial buffer by calls of `emit_tag` (with
`unsigned` line and offset) and `emit_file`. -/
inductive Reachable : TagBuf → Prop
  | init : Reachable initBuf
  | tag {st st' : TagBuf} (name text : List Nat) (line offset : Nat) :
      Reachable st → line < 4294967296 → offset < 4294967296 →
      emit_tag name text line offset st = .ok st' → Reachable st'
  | file {st : TagBuf} (file : List Nat) :
      Reachable st → Reachable (emit_file file st).2

/-- The written part of the buffer: the bytes from index 0 up to the write offset. -/
def TagBuf.contents (st : TagBuf) : List (Option Nat) :=
  st.etags_buf.take st.etags_wr_ptr

/-- The invariant of the tag buffer: the write offset is inside the
allocation, whose size is `etags_buf_len`. -/
def TagBuf.WF (st : TagBuf) : Prop :=
  st.etags_wr_ptr < st.etags_buf_len ∧ st.etags_buf.length = st.etags_buf_len

/-! ## Definition visitor -/

/-- What libclang reports about one cursor. -/
structure CursorInfo where
  /-- result of `clang_isCursorDefinition` -/
  isDefinition : Bool
  /-- file, line, column and offset of `clang_getSpellingLocation` on the cursor location -/
  file : Nat
  line : Nat
  column : Nat
  offset : Nat
  /-- offset of the end of `clang_getCursorExtent` -/
  extentEnd : Nat
  /-- result of `clang_getCursorSpelling` -/
  spelling : List Nat
  /-- result of `clang_getCursorKind` -/
  kind : Nat
  deriving DecidableEq, Repr

/-- A cursor with its children. -/
inductive Cursor where
  | mk (info : CursorInfo) (children : List Cursor)

/-- The data of a cursor. -/
def Cursor.info : Cursor → CursorInfo
  | .mk i _ => i

/-- The children of a cursor. -/
def Cursor.children : Cursor → List Cursor
  | .mk _ cs => cs

/-- The type `enum CXChildVisitResult` of `clang-c/Index.h`. -/
inductive CXChildVisitResult where
  | CXChildVisit_Break
  | CXChildVisit_Continue
  | CXChildVisit_Recurse
  deriving DecidableEq, Repr

/-- The structure `VisitorArgs`. -/
structure VisitorArgs where
  source_file : Nat
  file_contents : List Nat

/-- Subtraction of `unsigned` values. -/
def u32sub (a b : Nat) : Nat := (a + 4294967296 - b % 4294967296) % 4294967296

/-- The C string held by a buffer: its bytes before the first NUL. -/
def cstring (buf : List Nat) : List Nat := buf.takeWhile (fun b => b != 0)

/-- The function `cursor_visitor`.  It returns `CXChildVisit_Continue` for every cursor kind. -/
def cursor_visitor (args : VisitorArgs) (cursor _parent : Cursor) (st : TagBuf) :
    Except Fault (CXChildVisitResult × TagBuf) :=
  let c := cursor.info
  if c.isDefinition then
    if c.file = args.source_file then
      match find_search_text args.file_contents c.offset (u32sub c.extentEnd c.offset) with
      | .error f => .error f
      | .ok search =>
        if c.spelling ≠ [] then
          match emit_tag c.spelling (cstring search) c.line c.offset st with
          | .error f => .error f
          | .ok st' => .ok (.CXChildVisit_Continue, st')
        else .ok (.CXChildVisit_Continue, st)
    else .ok (.CXChildVisit_Continue, st)
  else .ok (.CXChildVisit_Continue, st)

mutual
/-- The function `clang_visitChildren` of libclang, after the contract documented in
`clang-c/Index.h`: the visitor is called on each child of the parent in order;
`CXChildVisit_Break` ends the traversal, `CXChildVisit_Continue` goes on with
the next sibling without visiting the children of the cursor just visited,
`CXChildVisit_Recurse` visits those children with the same visitor first.  The
Boolean tells whether the traversal was ended by `CXChildVisit_Break`. -/
def clang_visitChildren {σ : Type}
    (visitor : Cursor → Cursor → σ → Except Fault (CXChildVisitResult × σ)) :
    Cursor → σ → Except Fault (Bool × σ)
  | .mk info cs, s => visitList visitor (.mk info cs) cs s
/-- The traversal of `clang_visitChildren` over the remaining children of `parent`. -/
def visitList {σ : Type}
    (visitor : Cursor → Cursor → σ → Except Fault (CXChildVisitResult × σ))
    (parent : Cursor) : List Cursor → σ → Except Fault (Bool × σ)
  | [], s => .ok (false, s)
  | c :: rest, s =>
    match visitor c parent s with
    | .error f => .error f
    | .ok (.CXChildVisit_Break, s') => .ok (true, s')
    | .ok (.CXChildVisit_Continue, s') => visitList visitor parent rest s'
    | .ok (.CXChildVisit_Recurse, s') =>
      match clang_visitChildren visitor c s' with
      | .error f => .error f
      | .ok (true, s'') => .ok (true, s'')
      | .ok (false, s'') => visitList visitor parent rest s''
end

/-- The search text `cursor_visitor` passes to `emit_tag` for a cursor. -/
def searchTextOf (args : VisitorArgs) (c : CursorInfo) : List Nat :=
  match find_search_text args.file_contents c.offset (u32sub c.extentEnd c.offset) with
  | .ok search => cstring search
  | .error _ => []

/-- The cursors for which `cursor_visitor` calls `emit_tag`: definitions
located in the file being indexed whose spelling is non-empty. -/
def emitsTag (args : VisitorArgs) (c : Cursor) : Bool :=
  c.info.isDefinition && decide (c.info.file = args.source_file) && decide (c.info.spelling ≠ [])

/-! ## Missing-include list -/

/-- The constant `MAX_MISSING_FILES`. -/
def MAX_MISSING_FILES : Nat := 100

/-- The function `add_missing_file` on the list `missing_files[0 .. n_missing_files)`. -/
def add_missing_file (file : List Nat) (missing : List (List Nat)) :
    Except Fault (List (List Nat)) :=
  if missing.length < MAX_MISSING_FILES then
    if missing.any (fun m => m == file) then .ok missing
    else .ok (missing ++ [file])
  else .error .assertion

/-- A diagnostic: its category and, when `regexec` matches its spelling against
`'(.*)' file not found`, the text of the first group. -/
structure Diagnostic where
  category : Nat
  captured : Option (List Nat)

/-- The diagnostics loop of `process_file`. -/
def process_diagnostics : List Diagnostic → List (List Nat) → Except Fault (List (List Nat))
  | [], missing => .ok missing
  | d :: ds, missing =>
    if d.category = 2 ∧ missing.length < MAX_MISSING_FILES then
      match d.captured with
      | none => process_diagnostics ds missing
      | some name =>
        match add_missing_file name missing with
        | .error f => .error f
        | .ok missing' => process_diagnostics ds missing'
    else process_diagnostics ds missing

/-- The diagnostics loops of the files of a run, in order. -/
def process_files_diagnostics : List (List Diagnostic) → List (List Nat) →
    Except Fault (List (List Nat))
  | [], missing => .ok missing
  | ds :: rest, missing =>
    match process_diagnostics ds missing with
    | .error f => .error f
    | .ok missing' => process_files_diagnostics rest missing'

/-- The names extracted from the preprocessor-issue diagnostics of a run, in order. -/
def offeredNames (files : List (List Diagnostic)) : List (List Nat) :=
  files.flatten.filterMap (fun d => if d.category = 2 then d.captured else none)

/-- The buffer after `emit_tag("add", "int add(int a, int b)", 1, 4)` on the
initial buffer. -/
def sampleBuf : TagBuf :=
  match emit_tag (bytesOf "add") (bytesOf "int add(int a, int b)") 1 4 initBuf with
  | .ok st => st
  | .error _ => initBuf

/-- Two records whose lines do not fit the initial 16 bytes. -/
def sampleRecords : List TagRecord :=
  [⟨bytesOf "add", bytesOf "int add(int a, int b)", 1, 4⟩,
   ⟨bytesOf "counter", bytesOf "static unsigned long counter", 12, 4294967295⟩]

/-- The record `cursor_visitor` hands to `emit_tag` for a cursor. -/
def tagRecordOf (args : VisitorArgs) (c : Cursor) : TagRecord :=
  ⟨c.info.spelling, searchTextOf args c.info, c.info.line, c.info.offset⟩

/-- The calls `cursor_visitor` makes on a cursor stay inside defined behaviour:
if the cursor is a definition located in the file being indexed, the
extraction of its search text reads inside the file content, and its line and
offset are `unsigned` values. -/
def Extractable (args : VisitorArgs) (c : Cursor) : Prop :=
  c.info.isDefinition = true → c.info.file = args.source_file →
    (∃ txt, find_search_text args.file_contents c.info.offset
        (u32sub c.info.extentEnd c.info.offset) = .ok txt) ∧
    c.info.line < 4294967296 ∧ c.info.offset < 4294967296

/-- The file `struct A {\n  void f() {}\n};\n`, indexed as file 1. -/
def nestedArgs : VisitorArgs :=
  { source_file := 1,
    file_contents := bytesOf "struct A \x7b\n  void f() \x7b\x7d\n\x7d;\n" }

/-- The member function `f` of `struct A`: a definition on line 2. -/
def nestedF : Cursor :=
  .mk { isDefinition := true, file := 1, line := 2, column := 8, offset := 18,
        extentEnd := 24, spelling := bytesOf "f", kind := 21 } []

/-- The definition of `struct A` on line 1, with `f` as its child. -/
def nestedA : Cursor :=
  .mk { isDefinition := true, file := 1, line := 1, column := 8, offset := 7,
        extentEnd := 26, spelling := bytesOf "A", kind := 2 } [nestedF]

/-- The translation-unit cursor of the file. -/
def nestedTU : Cursor :=
  .mk { isDefinition := false, file := 0, line := 0, column := 0, offset := 0,
        extentEnd := 0, spelling := bytesOf "nested.cpp", kind := 350 } [nestedA]

/-- Spec: the index of the first occurrence of `x` in `l` (the length of `l`
if there is none). -/
def firstIndex (x : List Nat) : List (List Nat) → Nat
  | [] => 0
  | y :: ys => if y = x then 0 else firstIndex x ys + 1

/-- The invariant of the missing-file list after the names `seen` were offered:
at most 100 entries, all of them offered names, listed by first occurrence
(hence without repetition), and complete as long as the list is not full. -/
def MissingInv (seen missing : List (List Nat)) : Prop :=
  missing.length ≤ MAX_MISSING_FILES ∧
  (∀ x ∈ missing, x ∈ seen) ∧
  missing.Pairwise (fun a b => firstIndex a seen < firstIndex b seen) ∧
  (missing.length < MAX_MISSING_FILES → ∀ x ∈ seen, x ∈ missing)

/-! ### Facts about the three loops -/

theorem readAt_ok {content : List Nat} {i b : Nat} :
    readAt content i = .ok b ↔ content[i]? = some b := by
  unfold readAt
  cases h : content[i]? <;> simp

theorem readAt_of_lt {content : List Nat} {i : Nat} (h : i < content.length) :
    readAt content i = .ok content[i] := by
  rw [readAt_ok]; exact List.getElem?_eq_getElem h

theorem scanBack_spec (content : List Nat) :
    ∀ (O s : Nat), scanBack content O = .ok s → IsLineStart content O s := by
  intro O
  induction O with
  | zero =>
    intro s h
    simp only [scanBack, Except.ok.injEq] at h
    subst h
    exact ⟨le_refl _, Or.inl rfl, fun i hi _ => absurd hi (Nat.not_lt_zero i)⟩
  | succ n ih =>
    intro s h
    simp only [scanBack] at h
    cases hr : readAt content n with
    | error f => rw [hr] at h; simp at h
    | ok b =>
      rw [hr] at h
      simp only at h
      rw [readAt_ok] at hr
      by_cases hb : b = 10
      · rw [if_pos hb, Except.ok.injEq] at h
        subst h
        refine ⟨le_refl _, Or.inr ?_, fun i hi hs => absurd hi (by omega)⟩
        simpa [hb] using hr
      · rw [if_neg hb] at h
        obtain ⟨h1, h2, h3⟩ := ih s h
        refine ⟨Nat.le_succ_of_le h1, h2, fun i hi hs => ?_⟩
        by_cases hin : i = n
        · subst hin; rw [hr]; simpa using hb
        · exact h3 i (by omega) hs

theorem scanBack_total (content : List Nat) :
    ∀ O, O ≤ content.length → ∃ s, scanBack content O = .ok s := by
  intro O
  induction O with
  | zero => intro _; exact ⟨0, rfl⟩
  | succ n ih =>
    intro h
    simp only [scanBack]
    rw [readAt_of_lt (show n < content.length by omega)]
    simp only
    by_cases hb : content[n] = 10
    · exact ⟨n + 1, by rw [if_pos hb]⟩
    · rw [if_neg hb]; exact ih (by omega)

theorem lineStart_unique {content : List Nat} {O s s' : Nat}
    (h : IsLineStart content O s) (h' : IsLineStart content O s') : s = s' := by
  obtain ⟨h1, h2, h3⟩ := h
  obtain ⟨h1', h2', h3'⟩ := h'
  rcases Nat.lt_trichotomy s s' with hlt | heq | hgt
  · rcases h2' with h0 | hn
    · omega
    · exact absurd hn (h3 (s' - 1) (by omega) (by omega))
  · exact heq
  · rcases h2 with h0 | hn
    · omega
    · exact absurd hn (h3' (s - 1) (by omega) (by omega))

theorem scanFwd_spec (content : List Nat) :
    ∀ (fuel e0 t : Nat), scanFwd content fuel e0 = .ok t →
      e0 ≤ t ∧ t ≤ e0 + fuel ∧
      (∀ i, i < t → e0 ≤ i → ∃ b, content[i]? = some b ∧ end_search_char b = false) ∧
      (t = e0 + fuel ∨ ∃ b, content[t]? = some b ∧ end_search_char b = true) := by
  intro fuel
  induction fuel with
  | zero =>
    intro e0 t h
    simp only [scanFwd, Except.ok.injEq] at h
    subst h
    exact ⟨le_refl _, le_refl _, fun i hi hs => absurd hi (by omega), Or.inl rfl⟩
  | succ n ih =>
    intro e0 t h
    simp only [scanFwd] at h
    cases hr : readAt content e0 with
    | error f => rw [hr] at h; simp at h
    | ok b =>
      rw [hr] at h
      simp only at h
      rw [readAt_ok] at hr
      by_cases hb : end_search_char b = true
      · rw [if_pos hb, Except.ok.injEq] at h
        subst h
        exact ⟨le_refl _, by omega, fun i hi hs => absurd hi (by omega), Or.inr ⟨b, hr, hb⟩⟩
      · rw [if_neg hb] at h
        obtain ⟨h1, h2, h3, h4⟩ := ih (e0 + 1) t h
        refine ⟨by omega, by omega, fun i hi hs => ?_, ?_⟩
        · by_cases hin : i = e0
          · subst hin; exact ⟨b, hr, by simpa using hb⟩
          · exact h3 i hi (by omega)
        · rcases h4 with h4 | h4
          · left; omega
          · right; exact h4

theorem scanFwd_of_terminator (content : List Nat) :
    ∀ (fuel O t : Nat), IsFirstTerminator content O t → t < O + fuel →
      scanFwd content fuel O = .ok t := by
  intro fuel
  induction fuel with
  | zero => intro O t h hlt; exact absurd h.1 (by omega)
  | succ n ih =>
    intro O t h hlt
    obtain ⟨h1, ⟨b, hb, hbt⟩, h3⟩ := h
    simp only [scanFwd]
    have hlen : t < content.length := by
      rcases Nat.lt_or_ge t content.length with hl | hl
      · exact hl
      · rw [List.getElem?_eq_none hl] at hb; simp at hb
    rw [readAt_of_lt (show O < content.length by omega)]
    simp only
    by_cases hOt : O = t
    · subst hOt
      rw [List.getElem?_eq_getElem hlen, Option.some.injEq] at hb
      rw [hb, if_pos hbt]
    · have hf := h3 O (by omega) (le_refl _) content[O]
        (List.getElem?_eq_getElem (show O < content.length by omega))
      rw [hf]
      simp only [Bool.false_eq_true, if_false]
      exact ih (O + 1) t ⟨by omega, ⟨b, hb, hbt⟩, fun i hi hs => h3 i hi (by omega)⟩ (by omega)

theorem scanFwd_no_terminator (content : List Nat) :
    ∀ (fuel O : Nat), O + fuel ≤ content.length →
      (∀ i, i < O + fuel → O ≤ i → ∀ b, content[i]? = some b → end_search_char b = false) →
      scanFwd content fuel O = .ok (O + fuel) := by
  intro fuel
  induction fuel with
  | zero => intro O _ _; rfl
  | succ n ih =>
    intro O hlen h
    simp only [scanFwd]
    rw [readAt_of_lt (show O < content.length by omega)]
    simp only
    rw [h O (by omega) (le_refl _) content[O]
      (List.getElem?_eq_getElem (show O < content.length by omega))]
    simp only [Bool.false_eq_true, if_false]
    rw [ih (O + 1) (by omega) (fun i hi hs => h i (by omega) (by omega))]
    congr 1; omega

theorem trimBack_spec (content : List Nat) :
    ∀ (t e : Nat), trimBack content t = .ok e → IsLastNonSpace content t e := by
  intro t
  induction t with
  | zero =>
    intro e h
    simp only [trimBack] at h
    cases hr : readAt content 0 with
    | error f => rw [hr] at h; simp at h
    | ok b =>
      rw [hr] at h
      simp only at h
      rw [readAt_ok] at hr
      by_cases hb : isspace b = true
      · rw [if_pos hb] at h; simp at h
      · rw [if_neg hb, Except.ok.injEq] at h
        subst h
        exact ⟨le_refl _, ⟨b, hr, by simpa using hb⟩, fun i hi hs => absurd hi (by omega)⟩
  | succ n ih =>
    intro e h
    simp only [trimBack] at h
    cases hr : readAt content (n + 1) with
    | error f => rw [hr] at h; simp at h
    | ok b =>
      rw [hr] at h
      simp only at h
      rw [readAt_ok] at hr
      by_cases hb : isspace b = true
      · rw [if_pos hb] at h
        obtain ⟨h1, h2, h3⟩ := ih e h
        refine ⟨by omega, h2, fun i hi hs c hc => ?_⟩
        by_cases hin : i = n + 1
        · subst hin; rw [hr, Option.some.injEq] at hc; subst hc; exact hb
        · exact h3 i (by omega) hs c hc
      · rw [if_neg hb, Except.ok.injEq] at h
        subst h
        exact ⟨le_refl _, ⟨b, hr, by simpa using hb⟩, fun i hi hs => absurd hi (by omega)⟩

theorem trimBack_of_lastNonSpace (content : List Nat) :
    ∀ (t e : Nat), t < content.length → IsLastNonSpace content t e →
      trimBack content t = .ok e := by
  intro t
  induction t with
  | zero =>
    intro e hlen h
    obtain ⟨h1, ⟨b, hb, hbs⟩, _⟩ := h
    have he : e = 0 := by omega
    subst he
    simp only [trimBack]
    rw [readAt_ok.mpr hb]
    simp [hbs]
  | succ n ih =>
    intro e hlen h
    obtain ⟨h1, ⟨b, hb, hbs⟩, h3⟩ := h
    simp only [trimBack]
    by_cases hen : e = n + 1
    · subst hen
      rw [readAt_ok.mpr hb]
      simp [hbs]
    · rw [readAt_of_lt hlen]
      simp only
      rw [h3 (n + 1) (le_refl _) (by omega) content[n + 1] (List.getElem?_eq_getElem hlen)]
      simp only [if_true]
      exact ih e (by omega) ⟨by omega, ⟨b, hb, hbs⟩, fun i hi hs => h3 i (by omega) hs⟩

/-! ### The extractor as a whole -/

theorem find_search_span_ok {content : List Nat} {O M s e : Nat}
    (h : find_search_span content O M = .ok (s, e)) :
    ∃ t, scanBack content O = .ok s ∧ scanFwd content (M + 1) O = .ok t ∧
      trimBack content t = .ok e := by
  unfold find_search_span at h
  cases h1 : scanBack content O with
  | error f => rw [h1] at h; simp at h
  | ok s' =>
    rw [h1] at h
    simp only at h
    cases h2 : scanFwd content (M + 1) O with
    | error f => rw [h2] at h; simp at h
    | ok t =>
      rw [h2] at h
      simp only at h
      cases h3 : trimBack content t with
      | error f => rw [h3] at h; simp at h
      | ok e' =>
        rw [h3] at h
        simp only [Except.ok.injEq, Prod.mk.injEq] at h
        obtain ⟨rfl, rfl⟩ := h
        exact ⟨t, rfl, rfl, h3⟩

theorem find_search_span_of {content : List Nat} {O M s t e : Nat}
    (h1 : scanBack content O = .ok s) (h2 : scanFwd content (M + 1) O = .ok t)
    (h3 : trimBack content t = .ok e) : find_search_span content O M = .ok (s, e) := by
  unfold find_search_span
  rw [h1]; simp only
  rw [h2]; simp only
  rw [h3]

theorem find_search_text_ok {content : List Nat} {O M : Nat} {txt : List Nat}
    (h : find_search_text content O M = .ok txt) :
    ∃ s e, find_search_span content O M = .ok (s, e) ∧ s ≤ e + 1 ∧ txt = slice content s e := by
  unfold find_search_text at h
  cases h1 : find_search_span content O M with
  | error f => rw [h1] at h; simp at h
  | ok p =>
    obtain ⟨s, e⟩ := p
    rw [h1] at h
    simp only at h
    by_cases hlt : e + 1 < s
    · rw [if_pos hlt] at h; simp at h
    · rw [if_neg hlt, Except.ok.injEq] at h
      exact ⟨s, e, rfl, by omega, h.symm⟩

theorem find_search_text_of_span {content : List Nat} {O M s e : Nat}
    (h : find_search_span content O M = .ok (s, e)) (hse : s ≤ e + 1) :
    find_search_text content O M = .ok (slice content s e) := by
  unfold find_search_text
  rw [h]
  simp only
  rw [if_neg (by omega)]
  rfl

/-- The trimmed end never lands just before the line start: the byte there is
a newline (or there is no byte there). -/
theorem start_le_end {content : List Nat} {O t s e : Nat}
    (hs : IsLineStart content O s) (he : IsLastNonSpace content t e) (hse : s ≤ e + 1) :
    s ≤ e := by
  rcases Nat.lt_or_ge e s with hlt | hge
  · exfalso
    have hs1 : s = e + 1 := by omega
    obtain ⟨_, h2, _⟩ := hs
    obtain ⟨_, ⟨b, hb, hbs⟩, _⟩ := he
    rcases h2 with h0 | hn
    · omega
    · subst hs1
      simp only [Nat.add_sub_cancel] at hn
      rw [hb, Option.some.injEq] at hn
      subst hn
      simp [isspace] at hbs
  · exact hge

theorem slice_getElem? (content : List Nat) (s e i : Nat) (hi : s + i ≤ e) :
    (slice content s e)[i]? = content[s + i]? := by
  unfold slice
  rw [List.getElem?_take_of_lt (by omega), List.getElem?_drop]

theorem slice_length (content : List Nat) (s e : Nat) (hse : s ≤ e)
    (he : e < content.length) : (slice content s e).length = e + 1 - s := by
  unfold slice
  rw [List.length_take, List.length_drop]
  omega

theorem slice_mem {content : List Nat} {s e x : Nat} (hx : x ∈ slice content s e) :
    ∃ i, s ≤ i ∧ i ≤ e ∧ content[i]? = some x := by
  unfold slice at hx
  obtain ⟨i, hi, hget⟩ := List.getElem_of_mem hx
  have hi' : i < e + 1 - s := by
    rw [List.length_take] at hi; omega
  have h2 : ((content.drop s).take (e + 1 - s))[i]? = some x := by
    rw [List.getElem?_eq_getElem hi, hget]
  rw [List.getElem?_take_of_lt hi', List.getElem?_drop] at h2
  exact ⟨s + i, by omega, by omega, h2⟩

theorem lt_length_of_getElem? {content : List Nat} {i b : Nat} (h : content[i]? = some b) :
    i < content.length := by
  rcases Nat.lt_or_ge i content.length with hl | hl
  · exact hl
  · rw [List.getElem?_eq_none hl] at h; simp at h

/-! ### Claims about the extractor -/

/-- C4: when the byte at `O` is not whitespace and a terminator occurs at an
index in `[O, O+M]`, with `s` the index just after the last newline before `O`
(0 if none), `t` the first index `≥ O` holding a terminator and `e` the last
index `≤ t` holding a non-whitespace byte, `find_search_text content O M`
returns exactly the bytes `content[s..e]`. -/
theorem find_search_text_exact (content : List Nat) (O M s t e : Nat)
    (hO : ∃ b, content[O]? = some b ∧ isspace b = false)
    (hs : IsLineStart content O s)
    (ht : IsFirstTerminator content O t) (htM : t ≤ O + M)
    (he : IsLastNonSpace content t e) :
    find_search_text content O M = .ok (slice content s e) := by
  obtain ⟨b0, hb0, hws0⟩ := hO
  have hOlen := lt_length_of_getElem? hb0
  obtain ⟨s', hs'⟩ := scanBack_total content O (by omega)
  have hss : s' = s := lineStart_unique (scanBack_spec content O s' hs') hs
  subst hss
  have hfwd := scanFwd_of_terminator content (M + 1) O t ht (by omega)
  have htlen : t < content.length := by
    obtain ⟨_, ⟨b, hb, _⟩, _⟩ := ht
    exact lt_length_of_getElem? hb
  have htrim := trimBack_of_lastNonSpace content t e htlen he
  have hspan := find_search_span_of hs' hfwd htrim
  have hOe : O ≤ e := by
    rcases Nat.lt_or_ge e O with hlt | hge
    · exfalso
      have := he.2.2 O (by have := ht.1; omega) hlt b0 hb0
      rw [hws0] at this
      exact Bool.false_ne_true this
    · exact hge
  exact find_search_text_of_span hspan (by have := hs.1; omega)

/-- C4 on the specification's example `int add(int a, int b) {...}` with
`O = 0` and `M = 22` (the index of the brace): the result is
`int add(int a, int b)`. -/
theorem find_search_text_exact_witness :
    find_search_text addExample 0 22 = .ok (bytesOf "int add(int a, int b)") :=
  find_search_text_exact addExample 0 22 0 20 20
    ⟨105, rfl, rfl⟩
    ⟨le_refl _, Or.inl rfl, fun i hi _ => absurd hi (Nat.not_lt_zero i)⟩
    ⟨by decide, ⟨41, rfl, rfl⟩, by
      intro i hi _ b hb
      have hb' : addExample[i]? = some b := hb
      interval_cases i <;> (cases hb'; rfl)⟩
    (by decide)
    ⟨le_refl _, ⟨41, rfl, rfl⟩, fun i hi hlt => absurd hi (by omega)⟩

/-- C5 (failing input): on `int x = 1 ;` with `O = 4` (the `x`) and `M = 5`
(no terminator at the indices 4..9) the returned text is `int x = 1 ;`, whose
last byte has index `10 = O + M + 1`, one past the bound. -/
theorem find_search_text_exceeds_bound :
    find_search_span (bytesOf "int x = 1 ;\n") 4 5 = .ok (0, 10) ∧
    find_search_text (bytesOf "int x = 1 ;\n") 4 5 = .ok (bytesOf "int x = 1 ;") ∧
    4 + 5 < 10 :=
  ⟨rfl, rfl, by decide⟩

/-- The extracted text never reaches beyond index `O + M + 1`. -/
theorem find_search_span_end_le (content : List Nat) (O M s e : Nat)
    (h : find_search_span content O M = .ok (s, e)) : e ≤ O + M + 1 := by
  obtain ⟨t, _, h2, h3⟩ := find_search_span_ok h
  have := (scanFwd_spec content _ _ _ h2).2.1
  have := (trimBack_spec content _ _ h3).1
  omega

/-- When a terminator occurs at an index in `[O, O+M]`, the extracted text
ends at or before index `O + M`. -/
theorem find_search_span_end_le_of_terminator (content : List Nat) (O M s e t b : Nat)
    (h : find_search_span content O M = .ok (s, e))
    (hOt : O ≤ t) (htM : t ≤ O + M) (hb : content[t]? = some b)
    (hbt : end_search_char b = true) : e ≤ O + M := by
  obtain ⟨t1, _, h2, h3⟩ := find_search_span_ok h
  obtain ⟨_, _, hnt, _⟩ := scanFwd_spec content _ _ _ h2
  have he := (trimBack_spec content _ _ h3).1
  rcases Nat.lt_or_ge t t1 with hlt | hge
  · obtain ⟨c, hc, hcf⟩ := hnt t hlt hOt
    rw [hb, Option.some.injEq] at hc
    subst hc
    rw [hbt] at hcf
    exact absurd hcf (by decide)
  · omega

/-- C6 (counterexample): on the indented line `  int x;` with `O = 2` the
returned text starts at the line start and so begins with a space. -/
theorem find_search_text_leading_space :
    find_search_text (bytesOf "  int x;") 2 5 = .ok (bytesOf "  int x;") ∧
    (bytesOf "  int x;").head?.map isspace = some true :=
  ⟨rfl, rfl⟩

/-- C6 (amended): whenever `find_search_text` returns (all reads inside the
content), the returned text is non-empty, its last byte is not whitespace, and
it starts at the start of the line of `O` (so it keeps the indentation of
that line). -/
theorem find_search_text_no_trailing_space (content : List Nat) (O M : Nat) (txt : List Nat)
    (h : find_search_text content O M = .ok txt) :
    txt ≠ [] ∧ (∀ b, txt.getLast? = some b → isspace b = false) ∧
      ∃ s e, IsLineStart content O s ∧ s ≤ e ∧ txt = slice content s e := by
  obtain ⟨s, e, hspan, hse, rfl⟩ := find_search_text_ok h
  obtain ⟨t, h1, h2, h3⟩ := find_search_span_ok hspan
  have hs := scanBack_spec content O s h1
  have he := trimBack_spec content t e h3
  have hle := start_le_end hs he hse
  obtain ⟨_, ⟨b, hb, hbs⟩, _⟩ := he
  have helen := lt_length_of_getElem? hb
  have hlen := slice_length content s e hle helen
  refine ⟨?_, ?_, s, e, hs, hle, rfl⟩
  · intro hnil
    rw [hnil] at hlen
    simp at hlen
    omega
  · intro c hc
    rw [List.getLast?_eq_getElem?, hlen, slice_getElem? content s e _ (by omega)] at hc
    have : s + (e + 1 - s - 1) = e := by omega
    rw [this, hb, Option.some.injEq] at hc
    subst hc
    exact hbs

/-- Witness for C6 (amended) on the indented line. -/
theorem find_search_text_no_trailing_space_witness :
    (bytesOf "  int x;") ≠ [] ∧
      (∀ b, (bytesOf "  int x;").getLast? = some b → isspace b = false) ∧
      ∃ s e, IsLineStart (bytesOf "  int x;") 2 s ∧ s ≤ e ∧
        bytesOf "  int x;" = slice (bytesOf "  int x;") s e :=
  find_search_text_no_trailing_space (bytesOf "  int x;") 2 5 (bytesOf "  int x;") rfl

/-- C7 (counterexample): a signature continued over a line break before its
brace (at index 28), with the bound reaching past the brace: the returned text
is `void f(int a,`, which ends at the line break and does not reach the brace. -/
theorem find_search_text_stops_at_newline :
    (bytesOf "void f(int a,\n       int b) \x7b")[28]? = some 123 ∧
    find_search_text (bytesOf "void f(int a,\n       int b) \x7b") 0 28
      = .ok (bytesOf "void f(int a,") ∧
    find_search_span (bytesOf "void f(int a,\n       int b) \x7b") 0 28 = .ok (0, 12) :=
  ⟨rfl, rfl, rfl⟩

/-- C7 (amended): newline is a terminator of the forward scan, so whenever
`find_search_text` returns, the returned text contains no newline byte, and it
ends before every newline found at an index at or after `O`. -/
theorem find_search_text_no_newline (content : List Nat) (O M : Nat) (txt : List Nat)
    (h : find_search_text content O M = .ok txt) :
    10 ∉ txt ∧
    ∀ k, O ≤ k → content[k]? = some 10 →
      ∃ s e, find_search_span content O M = .ok (s, e) ∧ e < k ∧ txt = slice content s e := by
  obtain ⟨s, e, hspan, hse, rfl⟩ := find_search_text_ok h
  obtain ⟨t, h1, h2, h3⟩ := find_search_span_ok hspan
  have hs := scanBack_spec content O s h1
  have he := trimBack_spec content t e h3
  obtain ⟨hOt, htb, hnt, hend⟩ := scanFwd_spec content _ _ _ h2
  obtain ⟨het, ⟨b, hb, hbs⟩, _⟩ := he
  have key : ∀ i, i ≤ e → content[i]? = some 10 → i < O := by
    intro i hie hi
    rcases Nat.lt_or_ge i O with hlt | hge
    · exact hlt
    · exfalso
      rcases Nat.lt_or_ge i t with hit | hit
      · obtain ⟨c, hc, hcf⟩ := hnt i hit hge
        rw [hi, Option.some.injEq] at hc
        subst hc
        simp [end_search_char] at hcf
      · have hie' : i = e := by omega
        subst hie'
        rw [hi, Option.some.injEq] at hb
        subst hb
        simp [isspace] at hbs
  constructor
  · intro hmem
    obtain ⟨i, hsi, hie, hi⟩ := slice_mem hmem
    exact hs.2.2 i (key i hie hi) hsi hi
  · intro k hOk hk
    refine ⟨s, e, hspan, ?_, rfl⟩
    rcases Nat.lt_or_ge e k with hlt | hge
    · exact hlt
    · exact absurd (key k hge hk) (by omega)

/-- Witness for C7 (amended) on the two-line signature. -/
theorem find_search_text_no_newline_witness :
    10 ∉ bytesOf "void f(int a," ∧
    ∀ k, 0 ≤ k →
      (bytesOf "void f(int a,\n       int b) \x7b")[k]? = some 10 →
      ∃ s e, find_search_span (bytesOf "void f(int a,\n       int b) \x7b") 0 28 = .ok (s, e) ∧
        e < k ∧ bytesOf "void f(int a," = slice (bytesOf "void f(int a,\n       int b) \x7b") s e :=
  find_search_text_no_newline (bytesOf "void f(int a,\n       int b) \x7b") 0 28
    (bytesOf "void f(int a,") rfl

/-- C10: for `O` inside the content with a non-whitespace byte at `O`, and `M`
such that a terminator occurs at an index in `[O, O+M]` or `O+M+1` is inside
the content, `find_search_text` performs no read outside the content; its
start index is at most `O` and its trimmed end index at least `O`, so the
returned text is non-empty and holds the byte at `O`.  Without the condition
on the byte at `O`, on the content `\n\n` with `O = 1`, the trim loop steps
below index 0. -/
theorem find_search_text_in_bounds :
    (∀ (content : List Nat) (O M b0 : Nat),
      content[O]? = some b0 → isspace b0 = false →
      ((∃ t b, O ≤ t ∧ t ≤ O + M ∧ content[t]? = some b ∧ end_search_char b = true) ∨
        O + M + 1 < content.length) →
      ∃ s e, find_search_span content O M = .ok (s, e) ∧ s ≤ O ∧ O ≤ e ∧ e < content.length ∧
        find_search_text content O M = .ok (slice content s e) ∧
        slice content s e ≠ [] ∧ (slice content s e)[O - s]? = some b0) ∧
    (∀ M, find_search_text [10, 10] 1 M = .error .below) := by
  constructor
  · intro content O M b0 hb0 hws0 hM
    have hOlen := lt_length_of_getElem? hb0
    obtain ⟨s, h1⟩ := scanBack_total content O (by omega)
    have hs := scanBack_spec content O s h1
    -- the forward scan stays inside the content
    have hfwd : ∃ t, scanFwd content (M + 1) O = .ok t ∧ O ≤ t ∧ t < content.length := by
      by_cases hex : ∃ t b, O ≤ t ∧ t ≤ O + M ∧ content[t]? = some b ∧ end_search_char b = true
      · -- take the first terminator at or after O
        have hP : ∃ d, ∃ b, content[O + d]? = some b ∧ end_search_char b = true := by
          obtain ⟨t, b, hOt, _, hb, hbt⟩ := hex
          exact ⟨t - O, b, by rw [show O + (t - O) = t by omega]; exact hb, hbt⟩
        obtain ⟨t, b, hOt, htM, hb, hbt⟩ := hex
        have hmin := fun m (hm : m < Nat.find hP) => Nat.find_min hP hm
        obtain ⟨b1, hb1, hb1t⟩ := Nat.find_spec hP
        have hle : Nat.find hP ≤ t - O :=
          Nat.find_min' hP ⟨b, by rw [show O + (t - O) = t by omega]; exact hb, hbt⟩
        refine ⟨O + Nat.find hP, ?_, by omega, lt_length_of_getElem? hb1⟩
        apply scanFwd_of_terminator content (M + 1) O (O + Nat.find hP) _ (by omega)
        refine ⟨by omega, ⟨b1, hb1, hb1t⟩, fun i hi hOi c hc => ?_⟩
        by_contra hne
        have hct : end_search_char c = true := by simpa using hne
        exact hmin (i - O) (by omega)
          ⟨c, by rw [show O + (i - O) = i by omega]; exact hc, hct⟩
      · have hlen : O + M + 1 < content.length := by
          rcases hM with h | h
          · exact absurd h hex
          · exact h
        refine ⟨O + (M + 1), ?_, by omega, by omega⟩
        apply scanFwd_no_terminator content (M + 1) O (by omega)
        intro i hi hOi c hc
        by_contra hne
        have hct : end_search_char c = true := by simpa using hne
        exact hex ⟨i, c, hOi, by omega, hc, hct⟩
    obtain ⟨t, h2, hOt, htlen⟩ := hfwd
    -- the trim stops at or after O
    have hP : ∃ d, d ≤ t ∧ ∃ b, content[t - d]? = some b ∧ isspace b = false :=
      ⟨t - O, by omega, b0, by rw [show t - (t - O) = O by omega]; exact hb0, hws0⟩
    have hmin := fun m (hm : m < Nat.find hP) => Nat.find_min hP hm
    obtain ⟨hdt, b1, hb1, hb1s⟩ := Nat.find_spec hP
    have hle : Nat.find hP ≤ t - O :=
      Nat.find_min' hP ⟨by omega, b0, by rw [show t - (t - O) = O by omega]; exact hb0, hws0⟩
    have h3 : trimBack content t = .ok (t - Nat.find hP) := by
      apply trimBack_of_lastNonSpace content t _ htlen
      refine ⟨by omega, ⟨b1, hb1, hb1s⟩, fun i hit hlt c hc => ?_⟩
      by_contra hne
      have hcs : isspace c = false := by simpa using hne
      exact hmin (t - i) (by omega)
        ⟨by omega, c, by rw [show t - (t - i) = i by omega]; exact hc, hcs⟩
    have hspan := find_search_span_of h1 h2 h3
    have hsO := hs.1
    refine ⟨s, t - Nat.find hP, hspan, hsO, by omega, by omega,
      find_search_text_of_span hspan (by omega), ?_, ?_⟩
    · intro hnil
      have hl := slice_length content s (t - Nat.find hP) (by omega) (by omega)
      rw [hnil] at hl
      simp at hl
      omega
    · rw [slice_getElem? content s _ _ (by omega), show s + (O - s) = O by omega]
      exact hb0
  · intro M
    rfl

/-- Witness for C10 on `int x = 1 ;` with `O = 4`, `M = 5`: no terminator at
the indices 4..9, and index 10 is inside the content. -/
theorem find_search_text_in_bounds_witness :
    ∃ s e, find_search_span (bytesOf "int x = 1 ;\n") 4 5 = .ok (s, e) ∧ s ≤ 4 ∧ 4 ≤ e ∧
      e < (bytesOf "int x = 1 ;\n").length ∧
      find_search_text (bytesOf "int x = 1 ;\n") 4 5
        = .ok (slice (bytesOf "int x = 1 ;\n") s e) ∧
      slice (bytesOf "int x = 1 ;\n") s e ≠ [] ∧
      (slice (bytesOf "int x = 1 ;\n") s e)[4 - s]? = some 120 :=
  find_search_text_in_bounds.1 (bytesOf "int x = 1 ;\n") 4 5 120 rfl rfl (Or.inr (by decide))

/-! ### Facts about the tag buffer -/

theorem decimalAux_length (fuel : Nat) :
    ∀ (n k : Nat) (acc : List Nat), 1 ≤ k → n < 10 ^ k →
      (decimalAux fuel n acc).length ≤ acc.length + k := by
  induction fuel with
  | zero => intro n k acc _ _; simp [decimalAux]
  | succ f ih =>
    intro n k acc hk hn
    unfold decimalAux
    by_cases h10 : n < 10
    · rw [if_pos h10]; simp; omega
    · rw [if_neg h10]
      have hk2 : 2 ≤ k := by
        rcases Nat.lt_or_ge k 2 with h | h
        · have : k = 1 := by omega
          subst this
          simp at hn
          omega
        · exact h
      have hdiv : n / 10 < 10 ^ (k - 1) := by
        rw [Nat.div_lt_iff_lt_mul (by decide)]
        have : 10 ^ (k - 1) * 10 = 10 ^ k := by
          rw [← Nat.pow_succ]; congr 1; omega
        omega
      have := ih (n / 10) (k - 1) ((48 + n % 10) :: acc) (by omega) hdiv
      simp only [List.length_cons] at this
      omega

theorem decimal_length_le (n : Nat) (h : n < 4294967296) : (decimal n).length ≤ 10 := by
  have := decimalAux_length (n + 1) n 10 [] (by decide) (by omega)
  simpa [decimal] using this

theorem decimalAux_ne_zero (fuel : Nat) :
    ∀ (n : Nat) (acc : List Nat), 0 ∉ acc → 0 ∉ decimalAux fuel n acc := by
  induction fuel with
  | zero => intro n acc h; simpa [decimalAux] using h
  | succ f ih =>
    intro n acc h
    unfold decimalAux
    by_cases h10 : n < 10
    · rw [if_pos h10]
      simp only [List.mem_cons, not_or]
      exact ⟨by omega, h⟩
    · rw [if_neg h10]
      apply ih
      simp only [List.mem_cons, not_or]
      exact ⟨by omega, h⟩

theorem decimal_ne_zero (n : Nat) : 0 ∉ decimal n :=
  decimalAux_ne_zero (n + 1) n [] (by simp)

theorem formatTag_length (text name : List Nat) (line offset : Nat) :
    (formatTag text name line offset).length
      = text.length + name.length + (decimal line).length + (decimal offset).length + 4 := by
  simp [formatTag]; omega

theorem formatTag_ne_zero (text name : List Nat) (line offset : Nat)
    (ht : 0 ∉ text) (hn : 0 ∉ name) : 0 ∉ formatTag text name line offset := by
  have h1 := decimal_ne_zero line
  have h2 := decimal_ne_zero offset
  simp [formatTag, ht, hn, h1, h2]

theorem serialize_eq_formatTag (r : TagRecord) :
    r.serialize = formatTag r.text r.name r.line r.offset := rfl

theorem growLoop_spec (fuel : Nat) :
    ∀ (remain len : Nat) (buf : List (Option Nat)) (need off : Nat),
      0 < len → remain + off = len → buf.length = len → need ≤ remain + fuel →
      ∃ k, growLoop fuel remain len buf need
          = .ok (len * 2 ^ k - off, len * 2 ^ k,
              buf ++ List.replicate (len * 2 ^ k - len) none) ∧
        need ≤ len * 2 ^ k - off ∧ ∀ j, j < k → len * 2 ^ j - off < need := by
  induction fuel with
  | zero =>
    intro remain len buf need off hlen hrem hbuf hneed
    refine ⟨0, ?_, by simp; omega, fun j hj => absurd hj (by omega)⟩
    unfold growLoop
    rw [if_neg (by omega)]
    simp
    omega
  | succ f ih =>
    intro remain len buf need off hlen hrem hbuf hneed
    unfold growLoop
    by_cases hlt : remain < need
    · rw [if_pos hlt]
      have hre : realloc buf (len * 2) = buf ++ List.replicate len none := by
        unfold realloc
        rw [List.take_of_length_le (by omega), hbuf]
        congr 2; omega
      obtain ⟨k, hk, hneed', hmin⟩ := ih (remain + len) (len * 2) (realloc buf (len * 2)) need off
        (by omega) (by omega) (by rw [hre]; simp; omega) (by omega)
      have hpow : len * 2 * 2 ^ k = len * 2 ^ (k + 1) := by
        rw [Nat.pow_succ]; ring
      have hge : len * 2 ≤ len * 2 * 2 ^ k := Nat.le_mul_of_pos_right _ (Nat.two_pow_pos k)
      rw [hpow] at hk hneed' hge
      refine ⟨k + 1, ?_, hneed', fun j hj => ?_⟩
      · rw [hk, hre, List.append_assoc, List.append_replicate_replicate]
        have : len + (len * 2 ^ (k + 1) - len * 2) = len * 2 ^ (k + 1) - len := by omega
        rw [this]
      · rcases j with _ | j
        · simp; omega
        · have := hmin j (by omega)
          have hp : len * 2 * 2 ^ j = len * 2 ^ (j + 1) := by
            rw [Nat.pow_succ]; ring
          rw [← hp]; exact this
    · rw [if_neg hlt]
      refine ⟨0, ?_, by simp; omega, fun j hj => absurd hj (by omega)⟩
      simp
      omega

theorem writeBytes_take (buf : List (Option Nat)) (pos : Nat) (data : List Nat)
    (h : pos ≤ buf.length) :
    (writeBytes buf pos (data ++ [0])).take (pos + data.length)
      = buf.take pos ++ data.map some := by
  unfold writeBytes
  have hl : (buf.take pos).length = pos := by simp; omega
  rw [List.append_assoc]
  conv_lhs => rw [← hl]
  rw [hl]
  have : pos + data.length = (buf.take pos).length + data.length := by rw [hl]
  rw [this, List.take_append]
  congr 1
  simp only [List.map_append, List.map_cons, List.map_nil, List.append_assoc]
  have h2 : data.length = (data.map some).length := by simp
  rw [h2, List.take_left]

theorem writeBytes_getElem (buf : List (Option Nat)) (pos : Nat) (data : List Nat)
    (h : pos ≤ buf.length) :
    (writeBytes buf pos (data ++ [0]))[pos + data.length]? = some (some 0) := by
  unfold writeBytes
  have hl : (buf.take pos).length = pos := by simp; omega
  rw [List.append_assoc, List.getElem?_append_right (by omega), hl]
  simp only [List.map_append, List.map_cons, List.map_nil, List.append_assoc]
  rw [List.getElem?_append_right (by simp)]
  simp

theorem writeBytes_length (buf : List (Option Nat)) (pos : Nat) (data : List Nat)
    (h : pos + data.length ≤ buf.length) :
    (writeBytes buf pos data).length = buf.length := by
  unfold writeBytes
  simp
  omega

/-- What one call of `emit_tag` does on a buffer satisfying the invariant. -/
theorem emit_tag_spec (st : TagBuf) (hwf : st.WF) (name text : List Nat) (line offset : Nat)
    (hl : line < 4294967296) (ho : offset < 4294967296) :
    ∃ st' k, emit_tag name text line offset st = .ok st' ∧ st'.WF ∧
      st'.etags_buf_len = st.etags_buf_len * 2 ^ k ∧
      name.length + text.length + 64 ≤ st'.etags_buf_len - st.etags_wr_ptr ∧
      (∀ j, j < k → st.etags_buf_len * 2 ^ j - st.etags_wr_ptr < name.length + text.length + 64) ∧
      st'.etags_wr_ptr = st.etags_wr_ptr + (formatTag text name line offset).length ∧
      st'.contents = st.contents ++ (formatTag text name line offset).map some ∧
      st'.etags_buf[st'.etags_wr_ptr]? = some (some 0) := by
  obtain ⟨hoff, hbuf⟩ := hwf
  obtain ⟨k, hk, hneed, hmin⟩ := growLoop_spec (name.length + text.length + 64)
    (st.etags_buf_len - st.etags_wr_ptr) st.etags_buf_len st.etags_buf
    (name.length + text.length + 64) st.etags_wr_ptr (by omega) (by omega) hbuf (by omega)
  have hflen := formatTag_length text name line offset
  have hd1 := decimal_length_le line hl
  have hd2 := decimal_length_le offset ho
  have hge : st.etags_buf_len ≤ st.etags_buf_len * 2 ^ k :=
    Nat.le_mul_of_pos_right _ (Nat.two_pow_pos k)
  have hsz : ¬ (st.etags_buf_len * 2 ^ k - st.etags_wr_ptr = 0) := by omega
  have htake : (formatTag text name line offset).take
      (st.etags_buf_len * 2 ^ k - st.etags_wr_ptr - 1) = formatTag text name line offset :=
    List.take_of_length_le (by omega)
  have hposle : st.etags_wr_ptr ≤
      (st.etags_buf ++ List.replicate (st.etags_buf_len * 2 ^ k - st.etags_buf_len) none).length := by
    simp; omega
  have hrun : emit_tag name text line offset st = .ok
      { etags_buf := writeBytes
          (st.etags_buf ++ List.replicate (st.etags_buf_len * 2 ^ k - st.etags_buf_len) none)
          st.etags_wr_ptr (formatTag text name line offset ++ [0]),
        etags_wr_ptr := st.etags_wr_ptr + (formatTag text name line offset).length,
        etags_buf_len := st.etags_buf_len * 2 ^ k } := by
    unfold emit_tag
    simp only
    rw [hk]
    simp only [snprintf, if_neg hsz, htake]
  refine ⟨_, k, hrun, ?_, rfl, hneed, hmin, rfl, ?_, ?_⟩
  · constructor
    · simp only
      omega
    · simp only
      rw [writeBytes_length _ _ _ (by simp; omega)]
      simp; omega
  · simp only [TagBuf.contents]
    rw [writeBytes_take _ _ _ hposle, List.take_append_of_le_length (by omega)]
  · exact writeBytes_getElem _ _ _ hposle

theorem initBuf_WF : initBuf.WF := by
  constructor
  · decide
  · rfl

theorem emit_file_WF (file : List Nat) (st : TagBuf) (h : st.WF) : (emit_file file st).2.WF := by
  obtain ⟨h1, h2⟩ := h
  exact ⟨by simp only [emit_file]; omega, h2⟩

theorem reachable_WF (st : TagBuf) (h : Reachable st) : st.WF := by
  induction h with
  | init => exact initBuf_WF
  | tag name text line offset _ hl ho he ih =>
    obtain ⟨st'', _, he', hwf, _⟩ := emit_tag_spec _ ih name text line offset hl ho
    rw [he'] at he
    cases he
    exact hwf
  | file file _ ih => exact emit_file_WF file _ ih

/-! ### Claims about the tag buffer -/

theorem decimal_examples :
    decimal 0 = bytesOf "0" ∧ decimal 120 = bytesOf "120" ∧
      decimal 4294967295 = bytesOf "4294967295" :=
  ⟨rfl, rfl, rfl⟩

theorem emit_tags_spec (recs : List TagRecord) :
    ∀ (st : TagBuf), st.WF → (∀ r ∈ recs, r.valid) →
      ∃ st', emit_tags recs st = .ok st' ∧ st'.WF ∧
        st'.contents = st.contents ++ (recs.flatMap TagRecord.serialize).map some ∧
        st'.etags_wr_ptr = st.etags_wr_ptr + (recs.flatMap TagRecord.serialize).length ∧
        (recs ≠ [] → st'.etags_buf[st'.etags_wr_ptr]? = some (some 0)) := by
  induction recs with
  | nil =>
    intro st hwf _
    exact ⟨st, rfl, hwf, by simp, by simp, fun h => absurd rfl h⟩
  | cons r rs ih =>
    intro st hwf hv
    have hr := hv r (List.mem_cons_self _ _)
    obtain ⟨st1, _, h1, hwf1, _, _, _, hoff1, hc1, hnul1⟩ :=
      emit_tag_spec st hwf r.name r.text r.line r.offset hr.2.2.1 hr.2.2.2
    obtain ⟨st2, h2, hwf2, hc2, hoff2, hnul2⟩ :=
      ih st1 hwf1 (fun x hx => hv x (List.mem_cons_of_mem _ hx))
    refine ⟨st2, ?_, hwf2, ?_, ?_, fun _ => ?_⟩
    · simp only [emit_tags]
      rw [h1]
      exact h2
    · rw [hc2, hc1, List.flatMap_cons, serialize_eq_formatTag]
      simp
    · rw [hoff2, hoff1, List.flatMap_cons, serialize_eq_formatTag, List.length_append]
      omega
    · by_cases hrs : rs = []
      · subst hrs
        simp only [emit_tags, Except.ok.injEq] at h2
        subst h2
        exact hnul1
      · exact hnul2 hrs

/-- C1: starting from the buffer `main` creates (capacity 16, write offset 0),
after `emit_tag` has been called on each record of any finite sequence in
order (NUL-free strings of any length, `unsigned` line and offset), the calls
all return and the buffer bytes from index 0 up to the write offset are exactly
the concatenation, in call order, of
`text ++ 0x7F ++ name ++ 0x01 ++ decimal(line) ++ ',' ++ decimal(offset) ++ '\n'`. -/
theorem emit_tags_contents (recs : List TagRecord) (hv : ∀ r ∈ recs, r.valid) :
    ∃ st, emit_tags recs initBuf = .ok st ∧
      st.etags_wr_ptr = (recs.flatMap TagRecord.serialize).length ∧
      st.etags_buf.take st.etags_wr_ptr = (recs.flatMap TagRecord.serialize).map some := by
  obtain ⟨st, h, _, hc, hoff, _⟩ := emit_tags_spec recs initBuf initBuf_WF hv
  refine ⟨st, h, ?_, ?_⟩
  · rw [hoff]; simp [initBuf]
  · have : st.contents = (recs.flatMap TagRecord.serialize).map some := by
      rw [hc]; simp [TagBuf.contents, initBuf]
    exact this

theorem sampleRecords_valid : ∀ r ∈ sampleRecords, r.valid := by
  intro r hr
  simp only [sampleRecords, List.mem_cons, List.mem_singleton, List.not_mem_nil, or_false] at hr
  rcases hr with rfl | rfl
  · exact ⟨by decide, by decide, by decide, by decide⟩
  · exact ⟨by decide, by decide, by decide, by decide⟩

/-- Witness for C1 on two records that force the buffer to grow. -/
theorem emit_tags_contents_witness :
    ∃ st, emit_tags sampleRecords initBuf = .ok st ∧
      st.etags_wr_ptr = (sampleRecords.flatMap TagRecord.serialize).length ∧
      st.etags_buf.take st.etags_wr_ptr = (sampleRecords.flatMap TagRecord.serialize).map some :=
  emit_tags_contents sampleRecords sampleRecords_valid

theorem fputs_terminated (data : List Nat) (rest : List (Option Nat)) (h : 0 ∉ data) :
    fputs (data.map some ++ some 0 :: rest) = .ok data := by
  induction data with
  | nil => simp [fputs]
  | cons b bs ih =>
    simp only [List.mem_cons, not_or] at h
    have ih' := ih h.2
    simp only [List.map_cons, List.cons_append, fputs]
    rw [if_neg (fun hb => h.1 hb.symm)]
    show (match fputs (List.map some bs ++ some 0 :: rest) with
      | Except.error f => Except.error f
      | Except.ok out => Except.ok (b :: out)) = Except.ok (b :: bs)
    rw [ih']

theorem buf_split (st : TagBuf) (b : Option Nat)
    (h : st.etags_buf[st.etags_wr_ptr]? = some b) :
    st.etags_buf = st.contents ++ b :: st.etags_buf.drop (st.etags_wr_ptr + 1) := by
  have hlt : st.etags_wr_ptr < st.etags_buf.length := by
    rcases Nat.lt_or_ge st.etags_wr_ptr st.etags_buf.length with hl | hl
    · exact hl
    · rw [List.getElem?_eq_none hl] at h; simp at h
  rw [List.getElem?_eq_getElem hlt, Option.some.injEq] at h
  rw [← h, TagBuf.contents, List.getElem_cons_drop, List.take_append_drop]

/-- When at least one record was appended since the last flush, the length in
the section header is the length of the block written after it, and the block
is the records appended since the last flush. -/
theorem emit_file_header_matches (st : TagBuf) (hwf : st.WF) (h0 : st.etags_wr_ptr = 0)
    (recs : List TagRecord) (hne : recs ≠ []) (hv : ∀ r ∈ recs, r.valid) (file : List Nat) :
    ∃ st', emit_tags recs st = .ok st' ∧
      (emit_file file st').1 = .ok ([12, 10]
        ++ (file ++ [44] ++ decimal (recs.flatMap TagRecord.serialize).length ++ [10])
        ++ recs.flatMap TagRecord.serialize) := by
  obtain ⟨st', h, _, hc, hoff, hnul⟩ := emit_tags_spec recs st hwf hv
  refine ⟨st', h, ?_⟩
  have hzero : 0 ∉ recs.flatMap TagRecord.serialize := by
    intro hmem
    obtain ⟨r, hr, hin⟩ := List.mem_flatMap.mp hmem
    have hrv := hv r hr
    exact formatTag_ne_zero r.text r.name r.line r.offset hrv.2.1 hrv.1 hin
  have hcont : st'.contents = (recs.flatMap TagRecord.serialize).map some := by
    rw [hc]; simp [TagBuf.contents, h0]
  have hsplit := buf_split st' (some 0) (hnul hne)
  rw [hcont] at hsplit
  simp only [emit_file]
  rw [hsplit, fputs_terminated _ _ hzero, hoff, h0, Nat.zero_add]

/-- C2 (failing input): `a.c` gets one record, `b.c` none.  The section of
`b.c` has the header `b.c,0` and is followed by the 20 bytes of the record of
`a.c`, which are still in the buffer. -/
theorem emit_file_stale_block :
    ∃ st1, emit_tag (bytesOf "main") (bytesOf "int main()") 1 4 initBuf = .ok st1 ∧
      (emit_file (bytesOf "a.c") st1).1
        = .ok (bytesOf "\x0c\na.c,20\n" ++ bytesOf "int main()\x7fmain\x011,4\n") ∧
      (emit_file (bytesOf "b.c") (emit_file (bytesOf "a.c") st1).2).1
        = .ok (bytesOf "\x0c\nb.c,0\n" ++ bytesOf "int main()\x7fmain\x011,4\n") :=
  ⟨_, rfl, rfl, rfl⟩

/-- A first file without any record: the buffer was never written, and
`fputs` reads bytes that have no defined value. -/
theorem emit_file_fresh_buffer :
    (emit_file (bytesOf "b.c") initBuf).1 = .error .indeterminate := rfl

/-- C9: in every state reached from the initial buffer by calls of `emit_tag`
and `emit_file`, the write offset is at most the capacity; `emit_tag` returns
with the capacity multiplied by `2 ^ k` for the least `k` that leaves at least
`strlen(name) + strlen(text) + 64` bytes after the write offset; `emit_file`
sets the write offset to 0 and keeps the capacity. -/
theorem tag_buffer_invariant (st : TagBuf) (h : Reachable st) :
    st.etags_wr_ptr ≤ st.etags_buf_len ∧
    (∀ (name text : List Nat) (line offset : Nat), line < 4294967296 → offset < 4294967296 →
      ∃ st' k, emit_tag name text line offset st = .ok st' ∧
        st'.etags_buf_len = st.etags_buf_len * 2 ^ k ∧
        name.length + text.length + 64 ≤ st.etags_buf_len * 2 ^ k - st.etags_wr_ptr ∧
        (∀ j, j < k →
          st.etags_buf_len * 2 ^ j - st.etags_wr_ptr < name.length + text.length + 64) ∧
        st'.etags_wr_ptr ≤ st'.etags_buf_len) ∧
    (∀ file : List Nat, (emit_file file st).2.etags_wr_ptr = 0 ∧
        (emit_file file st).2.etags_buf_len = st.etags_buf_len) := by
  have hwf := reachable_WF st h
  refine ⟨Nat.le_of_lt hwf.1, ?_, fun file => ⟨rfl, rfl⟩⟩
  intro name text line offset hl ho
  obtain ⟨st', k, h1, hwf', hlen, hneed, hmin, _⟩ := emit_tag_spec st hwf name text line offset hl ho
  exact ⟨st', k, h1, hlen, by rw [← hlen]; exact hneed, hmin, Nat.le_of_lt hwf'.1⟩

theorem sampleBuf_reachable : Reachable sampleBuf :=
  Reachable.tag (bytesOf "add") (bytesOf "int add(int a, int b)") 1 4 Reachable.init
    (by decide) (by decide) rfl

/-- Witness for C9 at the state after one `emit_tag` on the initial buffer. -/
theorem tag_buffer_invariant_witness :
    sampleBuf.etags_wr_ptr ≤ sampleBuf.etags_buf_len ∧
    (∀ (name text : List Nat) (line offset : Nat), line < 4294967296 → offset < 4294967296 →
      ∃ st' k, emit_tag name text line offset sampleBuf = .ok st' ∧
        st'.etags_buf_len = sampleBuf.etags_buf_len * 2 ^ k ∧
        name.length + text.length + 64 ≤ sampleBuf.etags_buf_len * 2 ^ k - sampleBuf.etags_wr_ptr ∧
        (∀ j, j < k →
          sampleBuf.etags_buf_len * 2 ^ j - sampleBuf.etags_wr_ptr
            < name.length + text.length + 64) ∧
        st'.etags_wr_ptr ≤ st'.etags_buf_len) ∧
    (∀ file : List Nat, (emit_file file sampleBuf).2.etags_wr_ptr = 0 ∧
        (emit_file file sampleBuf).2.etags_buf_len = sampleBuf.etags_buf_len) :=
  tag_buffer_invariant sampleBuf sampleBuf_reachable

/-! ### Claims about the definition visitor -/

/-- One call of `cursor_visitor`: it returns `CXChildVisit_Continue`, and
appends one record when the cursor is a definition of the indexed file with a
non-empty spelling, nothing otherwise. -/
theorem cursor_visitor_spec (args : VisitorArgs) (c parent : Cursor) (st : TagBuf)
    (hwf : st.WF) (hx : Extractable args c) :
    ∃ st', cursor_visitor args c parent st = .ok (.CXChildVisit_Continue, st') ∧ st'.WF ∧
      st'.contents = st.contents ++
        (if emitsTag args c then (tagRecordOf args c).serialize else []).map some := by
  unfold cursor_visitor emitsTag
  by_cases hd : c.info.isDefinition = true
  · by_cases hf : c.info.file = args.source_file
    · obtain ⟨⟨txt, htxt⟩, hl, ho⟩ := hx hd hf
      simp only [hd, hf, if_true]
      rw [htxt]
      simp only
      by_cases hs : c.info.spelling = []
      · refine ⟨st, ?_, hwf, ?_⟩
        · simp [hs]
        · simp [hs]
      · obtain ⟨st', _, h1, hwf', _, _, _, _, hc, _⟩ :=
          emit_tag_spec st hwf c.info.spelling (cstring txt) c.info.line c.info.offset hl ho
        refine ⟨st', ?_, hwf', ?_⟩
        · simp only [ne_eq, hs, not_false_eq_true, if_true]
          rw [h1]
        · rw [hc]
          simp only [ne_eq, hs, not_false_eq_true, decide_True, Bool.and_self, if_true]
          simp only [tagRecordOf, searchTextOf, htxt, TagRecord.serialize, formatTag]
    · exact ⟨st, by simp [hd, hf], hwf, by simp [hf]⟩
  · exact ⟨st, by simp [hd], hwf, by simp [hd]⟩

theorem visitList_cursor_visitor (args : VisitorArgs) (parent : Cursor) (cs : List Cursor) :
    ∀ (st : TagBuf), st.WF → (∀ c ∈ cs, Extractable args c) →
      ∃ st', visitList (cursor_visitor args) parent cs st = .ok (false, st') ∧ st'.WF ∧
        st'.contents = st.contents ++
          (cs.flatMap (fun c =>
            if emitsTag args c then (tagRecordOf args c).serialize else [])).map some := by
  induction cs with
  | nil =>
    intro st hwf _
    exact ⟨st, by simp [visitList], hwf, by simp⟩
  | cons c rest ih =>
    intro st hwf hx
    obtain ⟨st1, h1, hwf1, hc1⟩ :=
      cursor_visitor_spec args c parent st hwf (hx c (List.mem_cons_self _ _))
    obtain ⟨st2, h2, hwf2, hc2⟩ := ih st1 hwf1 (fun x hm => hx x (List.mem_cons_of_mem _ hm))
    refine ⟨st2, ?_, hwf2, ?_⟩
    · rw [visitList, h1]
      exact h2
    · rw [hc2, hc1, List.flatMap_cons]
      simp

/-- C3 (counterexample): in `struct A { void f() {} };` the member function
`f` is a definition located in the indexed file with a non-empty name, nested
inside the definition of `A`.  The visit from the translation-unit cursor
appends the record of `A` only: `f` is never visited and gets no record. -/
theorem nested_definition_not_tagged :
    emitsTag nestedArgs nestedF = true ∧
    (clang_visitChildren (cursor_visitor nestedArgs) nestedTU initBuf).map
        (fun r => (r.1, r.2.contents))
      = .ok (false, (bytesOf "struct A \x7b\x7fA\x011,7\n").map some) :=
  ⟨rfl, rfl⟩

/-- C3 (amended): `cursor_visitor` returns `CXChildVisit_Continue` for every
cursor, so `clang_visitChildren` from the translation-unit cursor calls it on
the direct children of that cursor only.  The visit returns, and it appends, in
order, exactly one record (spelling, search text, line, offset) for each direct
child that is a definition located in the indexed file with a non-empty
spelling, and nothing for any other cursor, whatever is nested below. -/
theorem visit_tags_direct_children (args : VisitorArgs) (tu : Cursor) (st : TagBuf)
    (hwf : st.WF) (hx : ∀ c ∈ tu.children, Extractable args c) :
    ∃ st', clang_visitChildren (cursor_visitor args) tu st = .ok (false, st') ∧
      st'.contents = st.contents ++
        (tu.children.flatMap (fun c =>
          if emitsTag args c then (tagRecordOf args c).serialize else [])).map some := by
  obtain ⟨info, cs⟩ := tu
  obtain ⟨st', h, _, hc⟩ := visitList_cursor_visitor args (.mk info cs) cs st hwf hx
  exact ⟨st', by rw [clang_visitChildren]; exact h, hc⟩

theorem nestedTU_extractable : ∀ c ∈ nestedTU.children, Extractable nestedArgs c := by
  intro c hc
  simp only [nestedTU, Cursor.children, List.mem_singleton] at hc
  subst hc
  intro _ _
  exact ⟨⟨bytesOf "struct A \x7b", rfl⟩, by decide, by decide⟩

/-- Witness for C3 (amended) on `struct A { void f() {} };`. -/
theorem visit_tags_direct_children_witness :
    ∃ st', clang_visitChildren (cursor_visitor nestedArgs) nestedTU initBuf = .ok (false, st') ∧
      st'.contents = initBuf.contents ++
        (nestedTU.children.flatMap (fun c =>
          if emitsTag nestedArgs c then (tagRecordOf nestedArgs c).serialize else [])).map some :=
  visit_tags_direct_children nestedArgs nestedTU initBuf initBuf_WF nestedTU_extractable

/-! ### Claims about the missing-include list -/

theorem firstIndex_append_of_mem {x : List Nat} {l₁ l₂ : List (List Nat)} (h : x ∈ l₁) :
    firstIndex x (l₁ ++ l₂) = firstIndex x l₁ := by
  induction l₁ with
  | nil => exact absurd h (List.not_mem_nil x)
  | cons y ys ih =>
    simp only [List.cons_append, firstIndex]
    by_cases hy : y = x
    · rw [if_pos hy, if_pos hy]
    · rw [if_neg hy, if_neg hy]
      rcases List.mem_cons.mp h with hx | hx
      · exact absurd hx.symm hy
      · have := ih hx
        simp only [List.append_eq] at this ⊢
        omega

theorem firstIndex_append_of_not_mem {x : List Nat} {l₁ l₂ : List (List Nat)} (h : x ∉ l₁) :
    firstIndex x (l₁ ++ l₂) = l₁.length + firstIndex x l₂ := by
  induction l₁ with
  | nil => simp
  | cons y ys ih =>
    simp only [List.mem_cons, not_or] at h
    simp only [List.cons_append, firstIndex, List.length_cons]
    rw [if_neg (fun hy => h.1 hy.symm)]
    have := ih h.2
    simp only [List.append_eq] at this ⊢
    omega

theorem firstIndex_lt_length {x : List Nat} {l : List (List Nat)} (h : x ∈ l) :
    firstIndex x l < l.length := by
  induction l with
  | nil => exact absurd h (List.not_mem_nil x)
  | cons y ys ih =>
    simp only [firstIndex, List.length_cons]
    by_cases hy : y = x
    · rw [if_pos hy]; omega
    · rw [if_neg hy]
      rcases List.mem_cons.mp h with hx | hx
      · exact absurd hx.symm hy
      · have := ih hx; omega

theorem missingInv_skip {seen missing : List (List Nat)} (name : List Nat)
    (h : MissingInv seen missing)
    (hfull : missing.length < MAX_MISSING_FILES → name ∈ missing) :
    MissingInv (seen ++ [name]) missing := by
  obtain ⟨h1, h2, h3, h4⟩ := h
  refine ⟨h1, fun x hx => List.mem_append_left _ (h2 x hx), ?_, ?_⟩
  · refine List.Pairwise.imp_of_mem ?_ h3
    intro a b ha hb hab
    rw [firstIndex_append_of_mem (h2 a ha), firstIndex_append_of_mem (h2 b hb)]
    exact hab
  · intro hlt x hx
    rcases List.mem_append.mp hx with hx | hx
    · exact h4 hlt x hx
    · rw [List.mem_singleton] at hx
      subst hx
      exact hfull hlt

theorem missingInv_add {seen missing : List (List Nat)} (name : List Nat)
    (h : MissingInv seen missing) (hlt : missing.length < MAX_MISSING_FILES)
    (hnew : name ∉ missing) : MissingInv (seen ++ [name]) (missing ++ [name]) := by
  obtain ⟨h1, h2, h3, h4⟩ := h
  have hns : name ∉ seen := fun hs => hnew (h4 hlt name hs)
  refine ⟨?_, ?_, ?_, ?_⟩
  · rw [List.length_append, List.length_singleton]
    exact hlt
  · intro x hx
    rcases List.mem_append.mp hx with hx | hx
    · exact List.mem_append_left _ (h2 x hx)
    · exact List.mem_append_right _ hx
  · rw [List.pairwise_append]
    refine ⟨?_, List.pairwise_singleton _ _, ?_⟩
    · refine List.Pairwise.imp_of_mem ?_ h3
      intro a b ha hb hab
      rw [firstIndex_append_of_mem (h2 a ha), firstIndex_append_of_mem (h2 b hb)]
      exact hab
    · intro a ha b hb
      rw [List.mem_singleton] at hb
      subst hb
      rw [firstIndex_append_of_mem (h2 a ha), firstIndex_append_of_not_mem hns]
      have := firstIndex_lt_length (h2 a ha)
      omega
  · intro _ x hx
    rcases List.mem_append.mp hx with hx | hx
    · exact List.mem_append_left _ (h4 hlt x hx)
    · exact List.mem_append_right _ hx

theorem process_diagnostics_spec (ds : List Diagnostic) :
    ∀ (seen missing : List (List Nat)), MissingInv seen missing →
      ∃ missing', process_diagnostics ds missing = .ok missing' ∧
        MissingInv (seen ++ offeredNames [ds]) missing' := by
  induction ds with
  | nil =>
    intro seen missing h
    exact ⟨missing, rfl, by simpa [offeredNames] using h⟩
  | cons d rest ih =>
    intro seen missing h
    have hoff : ∀ l : List (List Nat),
        seen ++ offeredNames [d :: rest] = seen ++ l ++ offeredNames [rest] →
        ∀ m, (∃ missing', process_diagnostics rest m = .ok missing' ∧
            MissingInv (seen ++ l ++ offeredNames [rest]) missing') →
          ∃ missing', process_diagnostics rest m = .ok missing' ∧
            MissingInv (seen ++ offeredNames [d :: rest]) missing' := by
      intro l hl m hm
      rw [hl]; exact hm
    unfold process_diagnostics
    by_cases hcat : d.category = 2
    · cases hcap : d.captured with
      | none =>
        have hl : seen ++ offeredNames [d :: rest] = seen ++ [] ++ offeredNames [rest] := by
          simp [offeredNames, List.filterMap_cons, hcat, hcap]
        have := hoff [] hl missing (by simpa using ih seen missing h)
        by_cases hg : d.category = 2 ∧ missing.length < MAX_MISSING_FILES
        · rw [if_pos hg]; exact this
        · rw [if_neg hg]; exact this
      | some name =>
        have hl : seen ++ offeredNames [d :: rest] = seen ++ [name] ++ offeredNames [rest] := by
          simp [offeredNames, List.filterMap_cons, hcat, hcap]
        by_cases hlt : missing.length < MAX_MISSING_FILES
        · rw [if_pos ⟨hcat, hlt⟩]
          simp only [add_missing_file, if_pos hlt]
          by_cases hmem : name ∈ missing
          · have hany : missing.any (fun m => m == name) = true := by
              rw [List.any_eq_true]; exact ⟨name, hmem, by simp⟩
            rw [if_pos hany]
            exact hoff [name] hl missing
              (ih (seen ++ [name]) missing (missingInv_skip name h (fun _ => hmem)))
          · have hany : ¬ (missing.any (fun m => m == name) = true) := by
              rw [List.any_eq_true]
              rintro ⟨x, hx, hxe⟩
              have : x = name := by simpa using hxe
              subst this
              exact hmem hx
            rw [if_neg hany]
            exact hoff [name] hl (missing ++ [name])
              (ih (seen ++ [name]) (missing ++ [name]) (missingInv_add name h hlt hmem))
        · rw [if_neg (fun hg => hlt hg.2)]
          exact hoff [name] hl missing
            (ih (seen ++ [name]) missing (missingInv_skip name h (fun hl' => absurd hl' hlt)))
    · have hl : seen ++ offeredNames [d :: rest] = seen ++ [] ++ offeredNames [rest] := by
        simp [offeredNames, List.filterMap_cons, hcat]
      rw [if_neg (fun hg => hcat hg.1)]
      exact hoff [] hl missing (by simpa using ih seen missing h)

theorem process_files_diagnostics_spec (files : List (List Diagnostic)) :
    ∀ (seen missing : List (List Nat)), MissingInv seen missing →
      ∃ missing', process_files_diagnostics files missing = .ok missing' ∧
        MissingInv (seen ++ offeredNames files) missing' := by
  induction files with
  | nil =>
    intro seen missing h
    exact ⟨missing, rfl, by simpa [offeredNames] using h⟩
  | cons ds rest ih =>
    intro seen missing h
    obtain ⟨m1, h1, hinv1⟩ := process_diagnostics_spec ds seen missing h
    obtain ⟨m2, h2, hinv2⟩ := ih _ m1 hinv1
    refine ⟨m2, ?_, ?_⟩
    · rw [process_files_diagnostics, h1]
      exact h2
    · have : seen ++ offeredNames (ds :: rest)
          = seen ++ offeredNames [ds] ++ offeredNames rest := by
        simp [offeredNames]
      rw [this]
      exact hinv2

/-- C8: whatever diagnostics the files of a run produce, every call of
`add_missing_file` made under the guard of `process_file` passes its assertion
(the run returns a list), and the list has at most 100 entries, holds only
offered names, never holds a string twice, lists its entries in the order of
their first occurrence among the offered names, and misses no offered name
unless it is full. -/
theorem missing_files_bounded_nodup (files : List (List Diagnostic)) :
    ∃ missing, process_files_diagnostics files [] = .ok missing ∧
      missing.length ≤ 100 ∧
      missing.Nodup ∧
      (∀ x ∈ missing, x ∈ offeredNames files) ∧
      missing.Pairwise
        (fun a b => firstIndex a (offeredNames files) < firstIndex b (offeredNames files)) ∧
      (missing.length < 100 → ∀ x ∈ offeredNames files, x ∈ missing) := by
  have h0 : MissingInv [] [] :=
    ⟨Nat.zero_le _, fun x hx => absurd hx (List.not_mem_nil x), List.Pairwise.nil,
      fun _ x hx => absurd hx (List.not_mem_nil x)⟩
  obtain ⟨missing, h, h1, h2, h3, h4⟩ := process_files_diagnostics_spec files [] [] h0
  rw [List.nil_append] at h2 h3 h4
  refine ⟨missing, h, h1, ?_, h2, h3, h4⟩
  exact h3.imp (fun hab heq => by rw [heq] at hab; exact Nat.lt_irrefl _ hab)

end ClangTags
